import Mathlib

/-!
Shallow embedding of the core of `sequoia-openpgp-0.9.0`:
the body-length codecs, the `Common`/`Container` packet model with
`set_body`, the depth-first `PacketIter`/`PacketPathIter` iterators
(`src/packet/mod.rs`), and the dearmor dispatch of
`PacketParserBuilder::finalize` (`src/parse/packet_parser_builder.rs`).

Byte streams are `List Nat` with each element less than 256; fallible
reads return `Option` (pairing the parsed value with the residual
stream), mirroring the `io::Result` of the Rust source.
-/

namespace Sequoia

/-- The size of a packet (`BodyLength` in `src/packet/mod.rs`): fully
known (`Full`), chunked with the partial-body encoding (`Partial`), or
extending to end of file (`Indeterminate`). -/
inductive BodyLength : Type where
  | Full : Nat → BodyLength
  | Partial : Nat → BodyLength
  | Indeterminate : BodyLength
deriving DecidableEq, Repr

/-- The old-format length-type field (`PacketLengthType` from
`src/packet/ctb.rs`, as matched by `BodyLength::parse_old_format`). -/
inductive PacketLengthType : Type where
  | OneOctet : PacketLengthType
  | TwoOctets : PacketLengthType
  | FourOctets : PacketLengthType
  | Indeterminate : PacketLengthType
deriving DecidableEq, Repr

/-- `data_consume_hard(1)` of the buffered reader: consume one octet,
failing when the stream is exhausted. -/
def dch1 : List Nat → Option (Nat × List Nat)
  | [] => none
  | b :: rest => some (b, rest)

/-- `read_be_u16` of the buffered reader: consume two octets as a
big-endian 16-bit value, failing when fewer than two are available. -/
def read_be_u16 : List Nat → Option (Nat × List Nat)
  | b0 :: b1 :: rest => some (b0 * 256 + b1, rest)
  | _ => none

/-- `read_be_u32` of the buffered reader: consume four octets as a
big-endian 32-bit value, failing when fewer than four are available. -/
def read_be_u32 : List Nat → Option (Nat × List Nat)
  | b0 :: b1 :: b2 :: b3 :: rest =>
      some (((b0 * 256 + b1) * 256 + b2) * 256 + b3, rest)
  | _ => none

/-- `BodyLength::parse_new_format`: decode a new-format body length.
The first octet selects the one-octet, two-octet, partial, or
five-octet shape; `1 << (octet1 & 0x1F)` is `2 ^ (o1 % 32)` and
`(octet1 - 192) << 8` is `(o1 - 192) * 256`. -/
def BodyLength.parse_new_format (s : List Nat) :
    Option (BodyLength × List Nat) := do
  let (o1, s) ← dch1 s
  if o1 ≤ 191 then
    pure (.Full o1, s)
  else if o1 ≤ 223 then
    let (o2, s) ← dch1 s
    pure (.Full (((o1 - 192) <<< 8) + o2 + 192), s)
  else if o1 ≤ 254 then
    pure (.Partial (1 <<< (o1 &&& 0x1F)), s)
  else do
    let (n, s) ← read_be_u32 s
    pure (.Full n, s)

/-- `BodyLength::parse_old_format`: decode an old-format body length
according to the given length type. -/
def BodyLength.parse_old_format (s : List Nat) (lt : PacketLengthType) :
    Option (BodyLength × List Nat) :=
  match lt with
  | .OneOctet => do
      let (b, s) ← dch1 s
      pure (.Full b, s)
  | .TwoOctets => do
      let (n, s) ← read_be_u16 s
      pure (.Full n, s)
  | .FourOctets => do
      let (n, s) ← read_be_u32 s
      pure (.Full n, s)
  | .Indeterminate => pure (.Indeterminate, s)

/-- The packet tag, naming the packet kind.  The variants are those of
the `Packet` sum type in the source. -/
inductive Tag : Type where
  | Unknown | Signature | OnePassSig | PublicKey | PublicSubkey
  | SecretKey | SecretSubkey | Marker | Trust | UserID | UserAttribute
  | Literal | CompressedData | PKESK | SKESK | SEIP | MDC | AED
deriving DecidableEq, Repr

/-- A packet: its tag, the `Common.children` field (the packets of the
`Container`, when present), and the `Common.body` field.  This flattens
the `Packet → Common → Option Container → Vec<Packet>` chain of the
source, each link of which is a single-field wrapper. -/
inductive Packet : Type where
  | mk (tag : Tag) (children : Option (List Packet))
       (body : Option (List Nat)) : Packet

/-- The packets of a packet's container, or the empty list when it has
none (`Common::descendants` iterates `container.packets` when
`children` is `Some` and an empty slice otherwise). -/
def Packet.childPackets : Packet → List Packet
  | .mk _ children _ => children.getD []

mutual
/-- Number of nodes in a packet's subtree (the packet itself plus all
descendants); the termination measure for the iterators. -/
def Packet.size : Packet → Nat
  | .mk _ children _ => 1 + sizeO children

def sizeO : Option (List Packet) → Nat
  | none => 0
  | some ps => sizeL ps

def sizeL : List Packet → Nat
  | [] => 0
  | p :: ps => p.size + sizeL ps
end

/-- `Container`: the ordered sequence of child packets held by a
container packet. -/
structure Container : Type where
  packets : List Packet

/-- The fields shared by all packets (`Common` in `src/packet/mod.rs`):
the optional container of children and the optional body buffer. -/
structure Common : Type where
  children : Option Container
  body : Option (List Nat)

/-- `Common::set_body`: sets `children` to `None`, replaces `body` with
the new data (`None` when the data is empty), and returns the previous
body (the empty vector when there was none).  The result pairs the
returned vector with the updated `Common`. -/
def Common.set_body (c : Common) (data : List Nat) :
    List Nat × Common :=
  let c := { c with children := none }
  let old := c.body
  let c := { c with body := if data.length = 0 then none else some data }
  (old.getD [], c)

/-- The state of `PacketIter`: the remaining children of the current
node, the current child, the iterator over the current child's
children, and the depth of the last returned packet. -/
inductive PacketIter : Type where
  | mk (children : List Packet) (child : Option Packet)
       (grandchildren : Option PacketIter) (depth : Nat) : PacketIter

/-- The `depth` field of a `PacketIter`. -/
def PacketIter.depth : PacketIter → Nat
  | .mk _ _ _ d => d

/-- `Common::descendants` / the iterator built for each child inside
`PacketIter::next`: a fresh depth-first iterator over the packet's
children. -/
def Packet.descendants (p : Packet) : PacketIter :=
  .mk p.childPackets none none 0

/-- `Container::descendants`: a depth-first iterator over the
container's packets. -/
def Container.descendants (c : Container) : PacketIter :=
  .mk c.packets none none 0

/-- The shared tail of `PacketIter::next`: fetch the next child from
`children`; when present, install its descendants iterator and return
it at depth 0. -/
def PacketIter.stepChild (children : List Packet) :
    Option (Packet × PacketIter) :=
  match children with
  | [] => none
  | c :: rest => some (c, .mk rest (some c) (some c.descendants) 0)

/-- `PacketIter::next` (`impl Iterator for PacketIter`): drain the
grandchildren iterator first, adjusting `depth` to the grandchild's
depth plus one; when it is exhausted (or absent), advance to the next
child at depth 0.  The returned pair is the yielded packet and the
successor state. -/
def PacketIter.next : PacketIter → Option (Packet × PacketIter)
  | .mk children child (some gc) _ =>
    match gc.next with
    | some (p, gc') =>
        some (p, .mk children child (some gc') (gc'.depth + 1))
    | none => stepChild children
  | .mk children _ none _ => stepChild children

/-- Nesting depth of the grandchildren chain; a structural measure used
for induction over `PacketIter`. -/
def PacketIter.isize : PacketIter → Nat
  | .mk _ _ none _ => 1
  | .mk _ _ (some g) _ => 1 + g.isize

/-- Termination measure: the number of packets the iterator has yet to
yield. -/
def PacketIter.m : PacketIter → Nat
  | .mk children _ gc _ =>
    sizeL children + (match gc with | none => 0 | some g => g.m)

/-- Running an iterator with explicit fuel; `fuel = it.m` is always
enough, so `PacketIter.run` below is the full yielded sequence. -/
def PacketIter.runF : Nat → PacketIter → List Packet
  | 0, _ => []
  | fuel + 1, it =>
    match it.next with
    | none => []
    | some (p, it') => p :: runF fuel it'

/-- The finite sequence of packets yielded by a `PacketIter`. -/
def PacketIter.run (it : PacketIter) : List Packet :=
  runF it.m it

/-- Depth-first pre-order of a forest: each packet followed by the
pre-order of its children, then its later siblings. -/
def preorderL : List Packet → List Packet
  | [] => []
  | p :: ps => p :: (preorderL p.childPackets ++ preorderL ps)
termination_by l => sizeL l
decreasing_by
  · simp only [sizeL]
    cases p with
    | mk t ch b =>
      cases ch with
      | none => simp [Packet.childPackets, Packet.size, sizeO, sizeL]
      | some l => simp [Packet.childPackets, Packet.size, sizeO]; omega
  · simp only [sizeL]
    cases p with
    | mk t ch b => simp [Packet.size]

/-- Depth-first pre-order of a forest whose roots sit at depth `d`,
pairing every packet with its depth. -/
def annPreL (d : Nat) : List Packet → List (Nat × Packet)
  | [] => []
  | p :: ps => (d, p) :: (annPreL (d + 1) p.childPackets ++ annPreL d ps)
termination_by l => sizeL l
decreasing_by
  · simp only [sizeL]
    cases p with
    | mk t ch b =>
      cases ch with
      | none => simp [Packet.childPackets, Packet.size, sizeO, sizeL]
      | some l => simp [Packet.childPackets, Packet.size, sizeO]; omega
  · simp only [sizeL]
    cases p with
    | mk t ch b => simp [Packet.size]

/-- The naive recursive path enumeration (the reference `paths`
function of the source's `packet_path_iter` test): for the child at
index `i`, emit `[i]`, then every descendant path of that child
prefixed with `i`; `i` starts at the given index. -/
def pathPairsL : List Packet → Nat → List (List Nat × Packet)
  | [], _ => []
  | p :: ps, i =>
    ([i], p) ::
      (((pathPairsL p.childPackets 0).map fun qp => (i :: qp.1, qp.2))
        ++ pathPairsL ps (i + 1))
termination_by l _ => sizeL l
decreasing_by
  · simp only [sizeL]
    cases p with
    | mk t ch b =>
      cases ch with
      | none => simp [Packet.childPackets, Packet.size, sizeO, sizeL]
      | some l => simp [Packet.childPackets, Packet.size, sizeO]; omega
  · simp only [sizeL]
    cases p with
    | mk t ch b => simp [Packet.size]

/-- Shift every recorded depth up by one. -/
def shiftD (l : List (Nat × Packet)) : List (Nat × Packet) :=
  l.map fun dp => (dp.1 + 1, dp.2)

/-- Running a `PacketIter` with fuel while recording, for each yielded
packet, the `depth` field of the iterator right after the yield (the
value `PacketPathIter` reads). -/
def PacketIter.drunF : Nat → PacketIter → List (Nat × Packet)
  | 0, _ => []
  | fuel + 1, it =>
    match it.next with
    | none => []
    | some (p, it') => (it'.depth, p) :: drunF fuel it'

/-- The depth-annotated sequence yielded by a `PacketIter`. -/
def PacketIter.drun (it : PacketIter) : List (Nat × Packet) :=
  drunF it.m it

/-- Increment the last element of a path (`path[last] += 1`). -/
def incLast : List Nat → List Nat
  | [] => []
  | [x] => [x + 1]
  | x :: y :: xs => x :: incLast (y :: xs)

/-- The path update of `PacketPathIter::next`: with `old_depth =
path.len() - 1`, on a pop (`old_depth > depth`) truncate to `depth + 1`
octets and increment the last; on a sibling (`old_depth == depth`)
increment the last; on recursion (`old_depth + 1 == depth`) push `0`;
otherwise leave the path unchanged (no branch of the source fires). -/
def updatePath (path : List Nat) (depth : Nat) : List Nat :=
  let old_depth := path.length - 1
  if depth < old_depth then incLast (path.take (depth + 1))
  else if old_depth = depth then incLast path
  else if old_depth + 1 = depth then path ++ [0]
  else path

/-- The state of `PacketPathIter`: the wrapped `PacketIter` and the
path of the most recently returned packet (`None` before the first). -/
structure PacketPathIter : Type where
  iter : PacketIter
  path : Option (List Nat)

/-- `PacketIter::paths`: wrap the iterator with an absent path. -/
def PacketIter.paths (it : PacketIter) : PacketPathIter :=
  ⟨it, none⟩

/-- `PacketPathIter::next`: advance the wrapped iterator; initialize
the path to `[0]` on the first packet, otherwise update it from the
iterator's new depth; yield the updated path with the packet. -/
def PacketPathIter.next (s : PacketPathIter) :
    Option ((List Nat × Packet) × PacketPathIter) :=
  match s.iter.next with
  | none => none
  | some (p, it') =>
    match s.path with
    | none => some (([0], p), ⟨it', some [0]⟩)
    | some path =>
      let np := updatePath path it'.depth
      some ((np, p), ⟨it', some np⟩)

/-- Running a `PacketPathIter` with fuel. -/
def PacketPathIter.runF : Nat → PacketPathIter → List (List Nat × Packet)
  | 0, _ => []
  | fuel + 1, s =>
    match s.next with
    | none => []
    | some (pr, s') => pr :: runF fuel s'

/-- The finite sequence of `(path, packet)` pairs yielded by a
`PacketPathIter`. -/
def PacketPathIter.run (s : PacketPathIter) : List (List Nat × Packet) :=
  runF s.iter.m s

/-- Replay the path-reconstruction rule of `PacketPathIter::next` over
a depth-annotated packet sequence. -/
def reconstruct : Option (List Nat) → List (Nat × Packet) →
    List (List Nat × Packet)
  | _, [] => []
  | none, (_, p) :: rest => ([0], p) :: reconstruct (some [0]) rest
  | some path, (d, p) :: rest =>
    (updatePath path d, p) :: reconstruct (some (updatePath path d)) rest

/-- The path of the last node emitted for a forest whose roots have
paths `base ++ [j]`, `base ++ [j+1]`, …; `base` itself when the forest
is empty. -/
def lastPathF (base : List Nat) (j : Nat) : List Packet → List Nat
  | [] => base
  | [p] => lastPathF (base ++ [j]) 0 p.childPackets
  | _p :: q :: qs => lastPathF base (j + 1) (q :: qs)
termination_by l => sizeL l
decreasing_by
  · simp only [sizeL]
    cases p with
    | mk t ch b =>
      cases ch with
      | none => simp [Packet.childPackets, Packet.size, sizeO, sizeL]
      | some l => simp [Packet.childPackets, Packet.size, sizeO]
  · simp only [sizeL]
    cases _p with
    | mk t ch b => simp [Packet.size]

/-- Modelled from the spec: `PacketPile::path_ref` (the `PacketPile`
implementation is not under `src/`) — "`path_ref(&[i0,i1,…])` indexes
into this tree; returns None if any index is out of range".  Each index
selects a child of the current forest; descent continues through the
selected packet's children. -/
def pathRefL (ps : List Packet) : List Nat → Option Packet
  | [] => none
  | [i] => ps.get? i
  | i :: j :: rest =>
    match ps.get? i with
    | none => none
    | some p => pathRefL p.childPackets (j :: rest)

/-- Strict lexicographic order on paths (the tree order of the spec):
a proper prefix precedes its extensions, and otherwise the first
differing index decides. -/
def pathLtB : List Nat → List Nat → Bool
  | [], [] => false
  | [], _ :: _ => true
  | _ :: _, [] => false
  | a :: as, b :: bs => decide (a < b) || (decide (a = b) && pathLtB as bs)

/-- `armor::ReaderMode` (defined outside the embedded sources); it
carries no state the builder dispatch observes. -/
inductive ArmorReaderMode : Type where
  | standard : ArmorReaderMode
deriving DecidableEq, Repr

/-- `Dearmor` from `src/parse/packet_parser_builder.rs`: how `finalize`
treats the input stream. -/
inductive Dearmor : Type where
  | Enabled : ArmorReaderMode → Dearmor
  | Disabled : Dearmor
  | Auto : ArmorReaderMode → Dearmor

/-- The dearmor dispatch of `PacketParserBuilder::finalize`
(`src/parse/packet_parser_builder.rs`): `Enabled` and `Disabled` force
the choice; `Auto` parses a binary header from a duplicated prefix of
the stream (the `Dup` reader, whose `into_inner` hands the stream back
unconsumed) and chooses armor exactly when the parse fails or the
header is invalid.  `headerParse` and `headerValid` stand for
`packet::Header::parse` and `Header::valid(false)`, which live outside
the embedded sources.  The result pairs the chosen armor mode (`none`
meaning parse as binary) with the stream handed on to the packet
parser. -/
def dearmorMode {H : Type} (headerParse : List Nat → Option H)
    (headerValid : H → Bool) :
    Dearmor → List Nat → Option ArmorReaderMode × List Nat
  | .Enabled m, s => (some m, s)
  | .Disabled, s => (none, s)
  | .Auto m, s =>
    match headerParse s with
    | some h => if headerValid h then (none, s) else (some m, s)
    | none => (some m, s)

/-- The ASCII octets of `-----BEGIN PGP`, the start of every armor
header line the armor reader recognizes. -/
def armorBeginMarker : List Nat :=
  [45, 45, 45, 45, 45, 66, 69, 71, 73, 78, 32, 80, 71, 80]

/-- Modelled from the spec: the armor reader "recognizes lines of the
form `-----BEGIN PGP <KIND>-----`"; on an input containing no armor
header at all it yields no decoded bytes and reports EOF (the
issue-174 behavior the spec's open question records).  `decode` stands
for the Base64 decoding of a recognized armored body, which is outside
the embedded sources. -/
def armorReaderOutput (decode : List Nat → List Nat) (s : List Nat) :
    List Nat :=
  if armorBeginMarker <:+: s then decode s else []

/-- Result classification of `PacketParserBuilder::finalize`:
`parsedPacket` for `PacketParserResult::Some`, `eof` for
`PacketParserResult::EOF`. -/
inductive FinalizeResult : Type where
  | parsedPacket : FinalizeResult
  | eof : FinalizeResult
deriving DecidableEq, Repr

/-- Modelled from the spec for the `Enabled` arm of `finalize`: the
stream is unconditionally wrapped in the armor reader, and
`PacketParser::parse` (outside the embedded sources) yields EOF on an
empty source ("When depth reaches 0 and the outer source is at EOF,
transition to `AtEOF(0)`"), which `finalize` maps to a successful
`PacketParserResult::EOF`; on a non-empty decoded stream the result is
whatever the packet parser returns (the `parse` parameter). -/
def finalizeEnabled (decode : List Nat → List Nat)
    (parse : List Nat → Except Unit FinalizeResult) (s : List Nat) :
    Except Unit FinalizeResult :=
  let armored := armorReaderOutput decode s
  if armored.isEmpty then .ok .eof else parse armored

/-- A literal-data packet used as a concrete witness tree. -/
def wLiteral : Packet := .mk .Literal none none

/-- A compressed-data packet holding one literal child, used as a
concrete witness tree. -/
def wCompressed : Packet := .mk .CompressedData (some [wLiteral]) none

/-- A concrete two-root container (a nested child under the first
root) used to witness the iterator theorems. -/
def wContainer : Container := ⟨[wCompressed, wLiteral]⟩

theorem Packet.size_pos (p : Packet) : 0 < p.size := by
  cases p with
  | mk t c b => simp [Packet.size]

theorem PacketIter.next_m (it : PacketIter) :
    (∀ p it', it.next = some (p, it') → it'.m + 1 ≤ it.m) ∧
    (it.m = 0 → it.next = none) := by
  generalize hn : it.isize = n
  induction n using Nat.strong_induction_on generalizing it with
  | _ n ih =>
  have hstep : ∀ (children : List Packet) (p : Packet) (it' : PacketIter)
      (gm : Nat), PacketIter.stepChild children = some (p, it') →
      it'.m + 1 ≤ sizeL children + gm := by
    intro children p it' gm h
    cases children with
    | nil => simp [PacketIter.stepChild] at h
    | cons c rest =>
      simp [PacketIter.stepChild] at h
      obtain ⟨hp, hit⟩ := h
      subst hit
      cases c with
      | mk t cc cb =>
        simp [PacketIter.m, sizeL, Packet.descendants,
          Packet.childPackets, Packet.size]
        cases cc with
        | none => simp [sizeO, sizeL]; omega
        | some l => simp [sizeO]; omega
  cases it with
  | mk children child gc depth =>
    cases gc with
    | none =>
      refine ⟨fun p it' h => ?_, fun h => ?_⟩
      · simp [PacketIter.next] at h
        simpa using hstep children p it' 0 h
      · cases children with
        | nil => simp [PacketIter.next, PacketIter.stepChild]
        | cons c rest =>
          exfalso
          simp [PacketIter.m, sizeL] at h
          have := c.size_pos
          omega
    | some g =>
      have hg : g.isize < n := by
        simp [PacketIter.isize] at hn
        omega
      have ihg := ih g.isize hg g rfl
      refine ⟨fun p it' h => ?_, fun h => ?_⟩
      · cases hgn : g.next with
        | some pr =>
          obtain ⟨q, g'⟩ := pr
          simp [PacketIter.next, hgn] at h
          obtain ⟨hp, hit⟩ := h
          subst hit
          have := (ihg.1) q g' hgn
          simp [PacketIter.m]
          omega
        | none =>
          simp [PacketIter.next, hgn] at h
          exact hstep children p it' g.m h
      · simp [PacketIter.m] at h
        obtain ⟨hc, hg0⟩ := h
        have hgnone := (ihg.2) hg0
        cases children with
        | nil => simp [PacketIter.next, hgnone, PacketIter.stepChild]
        | cons c rest =>
          exfalso
          have := c.size_pos
          simp [sizeL] at hc
          omega

theorem PacketIter.next_m_lt {it it' : PacketIter} {p : Packet}
    (h : it.next = some (p, it')) : it'.m < it.m :=
  Nat.lt_of_succ_le ((PacketIter.next_m it).1 p it' h)

theorem PacketIter.runF_adequate (fuel : Nat) (it : PacketIter)
    (h : it.m ≤ fuel) : PacketIter.runF fuel it = it.run := by
  induction fuel using Nat.strong_induction_on generalizing it with
  | _ fuel ih =>
  cases fuel with
  | zero =>
    have h0 : it.m = 0 := Nat.le_zero.mp h
    simp [PacketIter.runF, PacketIter.run, h0]
  | succ n =>
    cases hn : it.next with
    | none =>
      cases hm : it.m with
      | zero => simp [PacketIter.runF, PacketIter.run, hn, hm]
      | succ k => simp [PacketIter.runF, PacketIter.run, hn, hm]
    | some pr =>
      obtain ⟨p, it'⟩ := pr
      have hlt := PacketIter.next_m_lt hn
      cases hm : it.m with
      | zero => exact absurd hn (by simp [(PacketIter.next_m it).2 hm])
      | succ k =>
        rw [hm] at hlt
        have h1 := ih n (by omega) it' (by omega)
        have h2 := ih k (by omega) it' (by omega)
        simp [PacketIter.runF, PacketIter.run, hn, hm, h1, h2]

theorem PacketIter.run_eq (it : PacketIter) :
    it.run = match it.next with
      | none => []
      | some (p, it') => p :: it'.run := by
  cases hn : it.next with
  | none =>
    cases hm : it.m with
    | zero => simp [PacketIter.run, PacketIter.runF, hm, hn]
    | succ k => simp [PacketIter.run, PacketIter.runF, hm, hn]
  | some pr =>
    obtain ⟨p, it'⟩ := pr
    have hlt := PacketIter.next_m_lt hn
    cases hm : it.m with
    | zero => exact absurd hn (by simp [(PacketIter.next_m it).2 hm])
    | succ k =>
      rw [hm] at hlt
      simp [PacketIter.run, PacketIter.runF, hm, hn]
      exact PacketIter.runF_adequate k it' (by omega)

theorem sizeL_childPackets (p : Packet) :
    sizeL p.childPackets + 1 = p.size := by
  cases p with
  | mk t ch b =>
    cases ch with
    | none => simp [Packet.childPackets, Packet.size, sizeO, sizeL]
    | some l => simp [Packet.childPackets, Packet.size, sizeO]; omega

theorem PacketIter.drunF_adequate (fuel : Nat) (it : PacketIter)
    (h : it.m ≤ fuel) : PacketIter.drunF fuel it = it.drun := by
  induction fuel using Nat.strong_induction_on generalizing it with
  | _ fuel ih =>
  cases fuel with
  | zero =>
    have h0 : it.m = 0 := Nat.le_zero.mp h
    simp [PacketIter.drunF, PacketIter.drun, h0]
  | succ n =>
    cases hn : it.next with
    | none =>
      cases hm : it.m with
      | zero => simp [PacketIter.drunF, PacketIter.drun, hn, hm]
      | succ k => simp [PacketIter.drunF, PacketIter.drun, hn, hm]
    | some pr =>
      obtain ⟨p, it'⟩ := pr
      have hlt := PacketIter.next_m_lt hn
      cases hm : it.m with
      | zero => exact absurd hn (by simp [(PacketIter.next_m it).2 hm])
      | succ k =>
        rw [hm] at hlt
        have h1 := ih n (by omega) it' (by omega)
        have h2 := ih k (by omega) it' (by omega)
        simp [PacketIter.drunF, PacketIter.drun, hn, hm, h1, h2]

theorem PacketIter.drun_eq (it : PacketIter) :
    it.drun = match it.next with
      | none => []
      | some (p, it') => (it'.depth, p) :: it'.drun := by
  cases hn : it.next with
  | none =>
    cases hm : it.m with
    | zero => simp [PacketIter.drun, PacketIter.drunF, hm, hn]
    | succ k => simp [PacketIter.drun, PacketIter.drunF, hm, hn]
  | some pr =>
    obtain ⟨p, it'⟩ := pr
    have hlt := PacketIter.next_m_lt hn
    cases hm : it.m with
    | zero => exact absurd hn (by simp [(PacketIter.next_m it).2 hm])
    | succ k =>
      rw [hm] at hlt
      simp [PacketIter.drun, PacketIter.drunF, hm, hn]
      exact PacketIter.drunF_adequate k it' (by omega)

theorem PacketIter.run_eq_drun (it : PacketIter) :
    it.run = it.drun.map Prod.snd := by
  generalize hn : it.m = n
  induction n using Nat.strong_induction_on generalizing it with
  | _ n ih =>
  rw [PacketIter.run_eq, PacketIter.drun_eq]
  cases hx : it.next with
  | none => simp
  | some pr =>
    obtain ⟨p, it'⟩ := pr
    have hlt := PacketIter.next_m_lt hx
    rw [hn] at hlt
    simp [ih it'.m hlt it' rfl]

theorem shiftD_annPreL (d : Nat) (l : List Packet) :
    shiftD (annPreL d l) = annPreL (d + 1) l := by
  generalize hn : sizeL l = n
  induction n using Nat.strong_induction_on generalizing d l with
  | _ n ih =>
  cases l with
  | nil => simp [annPreL, shiftD]
  | cons p ps =>
    have h1 : sizeL p.childPackets < n := by
      have := sizeL_childPackets p
      have := Packet.size_pos p
      simp [sizeL] at hn
      omega
    have h2 : sizeL ps < n := by
      have := Packet.size_pos p
      simp [sizeL] at hn
      omega
    calc shiftD (annPreL d (p :: ps))
        = (d + 1, p) :: (shiftD (annPreL (d + 1) p.childPackets)
            ++ shiftD (annPreL d ps)) := by
          rw [annPreL]; simp [shiftD]
      _ = (d + 1, p) :: (annPreL (d + 1 + 1) p.childPackets
            ++ annPreL (d + 1) ps) := by
          rw [ih _ h1 (d + 1) _ rfl, ih _ h2 d _ rfl]
      _ = annPreL (d + 1) (p :: ps) := by rw [annPreL]

/-- Core telescope for `PacketIter`: the depth-annotated yield sequence
is the (shifted) remainder of the grandchildren iterator followed by
the depth-0-rooted pre-order of the remaining children. -/
theorem PacketIter.drun_spec (children : List Packet) (child : Option Packet)
    (gc : Option PacketIter) (depth : Nat) :
    (PacketIter.mk children child gc depth).drun
      = (gc.elim [] fun g => shiftD g.drun) ++ annPreL 0 children := by
  generalize hn : (PacketIter.mk children child gc depth).m = n
  induction n using Nat.strong_induction_on generalizing children child gc depth with
  | _ n ih =>
  have hstep : ∀ (rest : List Packet) (c : Packet),
      PacketIter.m (.mk rest (some c) (some c.descendants) 0) < n →
      PacketIter.drun (.mk rest (some c) (some c.descendants) 0)
        = annPreL 1 c.childPackets ++ annPreL 0 rest := by
    intro rest c hlt
    have houter := ih _ hlt rest (some c) (some c.descendants) 0 rfl
    have hinner_lt : PacketIter.m c.descendants < n := by
      simp [PacketIter.m, Packet.descendants] at hlt ⊢
      omega
    have hinner := ih _ hinner_lt c.childPackets none none 0 rfl
    simp [Packet.descendants] at hinner
    rw [houter]
    simp [Packet.descendants, hinner, shiftD_annPreL]
  cases gc with
  | none =>
    rw [PacketIter.drun_eq]
    cases children with
    | nil => simp [PacketIter.next, PacketIter.stepChild, annPreL]
    | cons c rest =>
      have hnext : PacketIter.next (.mk (c :: rest) child none depth)
          = some (c, .mk rest (some c) (some c.descendants) 0) := rfl
      have hm : PacketIter.m (.mk rest (some c) (some c.descendants) 0) < n :=
        hn ▸ PacketIter.next_m_lt hnext
      rw [hnext]
      simp [PacketIter.depth, hstep rest c hm, annPreL]
  | some g =>
    cases hg : g.next with
    | some pr =>
      obtain ⟨q, g'⟩ := pr
      have hnext : PacketIter.next (.mk children child (some g) depth)
          = some (q, .mk children child (some g') (g'.depth + 1)) := by
        simp [PacketIter.next, hg]
      have hm : PacketIter.m (.mk children child (some g') (g'.depth + 1)) < n :=
        hn ▸ PacketIter.next_m_lt hnext
      have hrest := ih _ hm children child (some g') (g'.depth + 1) rfl
      have hgdrun : g.drun = (g'.depth, q) :: g'.drun := by
        rw [PacketIter.drun_eq, hg]
      rw [PacketIter.drun_eq, hnext]
      dsimp only
      rw [hrest]
      simp [hgdrun, shiftD, PacketIter.depth]
    | none =>
      have hgdrun : g.drun = [] := by rw [PacketIter.drun_eq, hg]
      cases children with
      | nil =>
        have hnext : PacketIter.next (.mk ([] : List Packet) child (some g) depth)
            = none := by
          simp [PacketIter.next, hg, PacketIter.stepChild]
        rw [PacketIter.drun_eq, hnext]
        simp [hgdrun, annPreL, shiftD]
      | cons c rest =>
        have hnext : PacketIter.next (.mk (c :: rest) child (some g) depth)
            = some (c, .mk rest (some c) (some c.descendants) 0) := by
          simp [PacketIter.next, hg, PacketIter.stepChild]
        have hm : PacketIter.m (.mk rest (some c) (some c.descendants) 0) < n :=
          hn ▸ PacketIter.next_m_lt hnext
        rw [PacketIter.drun_eq, hnext]
        simp [PacketIter.depth, hstep rest c hm, hgdrun, annPreL, shiftD]

/-- The depth-annotated yield of `Container::descendants` is exactly
the depth-annotated pre-order of the container's packets. -/
theorem Container.descendants_drun (c : Container) :
    c.descendants.drun = annPreL 0 c.packets := by
  have := PacketIter.drun_spec c.packets none none 0
  simpa [Container.descendants] using this

theorem PacketPathIter.next_iter_m_lt {s s' : PacketPathIter}
    {pr : List Nat × Packet} (h : s.next = some (pr, s')) :
    s'.iter.m < s.iter.m := by
  unfold PacketPathIter.next at h
  cases hn : s.iter.next with
  | none => simp [hn] at h
  | some q =>
    obtain ⟨p, it'⟩ := q
    have hlt := PacketIter.next_m_lt hn
    cases hp : s.path with
    | none => simp [hn, hp] at h; rw [← h.2]; exact hlt
    | some path => simp [hn, hp] at h; rw [← h.2]; exact hlt

theorem PacketPathIter.next_none {s : PacketPathIter}
    (h : s.iter.next = none) : s.next = none := by
  unfold PacketPathIter.next
  simp [h]

theorem PacketPathIter.runF_ok (fuel : Nat) (s : PacketPathIter)
    (h : s.iter.m ≤ fuel) : PacketPathIter.runF fuel s = s.run := by
  induction fuel using Nat.strong_induction_on generalizing s with
  | _ fuel ih =>
  cases fuel with
  | zero =>
    have h0 : s.iter.m = 0 := Nat.le_zero.mp h
    simp [PacketPathIter.runF, PacketPathIter.run, h0]
  | succ n =>
    cases hn : s.next with
    | none =>
      cases hm : s.iter.m with
      | zero => simp [PacketPathIter.runF, PacketPathIter.run, hn, hm]
      | succ k => simp [PacketPathIter.runF, PacketPathIter.run, hn, hm]
    | some pr =>
      obtain ⟨q, s'⟩ := pr
      have hlt := PacketPathIter.next_iter_m_lt hn
      cases hm : s.iter.m with
      | zero =>
        exact absurd hn
          (by simp [PacketPathIter.next_none ((PacketIter.next_m s.iter).2 hm)])
      | succ k =>
        rw [hm] at hlt
        have h1 := ih n (by omega) s' (by omega)
        have h2 := ih k (by omega) s' (by omega)
        simp [PacketPathIter.runF, PacketPathIter.run, hn, hm, h1, h2]

theorem PacketPathIter.run_unfold (s : PacketPathIter) :
    s.run = match s.next with
      | none => []
      | some (pr, s') => pr :: s'.run := by
  cases hn : s.next with
  | none =>
    cases hm : s.iter.m with
    | zero => simp [PacketPathIter.run, PacketPathIter.runF, hm, hn]
    | succ k => simp [PacketPathIter.run, PacketPathIter.runF, hm, hn]
  | some pr =>
    obtain ⟨q, s'⟩ := pr
    have hlt := PacketPathIter.next_iter_m_lt hn
    cases hm : s.iter.m with
    | zero =>
      exact absurd hn
        (by simp [PacketPathIter.next_none ((PacketIter.next_m s.iter).2 hm)])
    | succ k =>
      rw [hm] at hlt
      simp [PacketPathIter.run, PacketPathIter.runF, hm, hn]
      exact PacketPathIter.runF_ok k s' (by omega)

/-- A `PacketPathIter` run is the reconstruction replay over the
depth-annotated run of the wrapped iterator. -/
theorem PacketPathIter.run_reconstruct (s : PacketPathIter) :
    s.run = reconstruct s.path s.iter.drun := by
  generalize hn : s.iter.m = n
  induction n using Nat.strong_induction_on generalizing s with
  | _ n ih =>
  rw [PacketPathIter.run_unfold, PacketIter.drun_eq]
  cases hx : s.iter.next with
  | none => simp [PacketPathIter.next, hx, reconstruct]
  | some pr =>
    obtain ⟨p, it'⟩ := pr
    have hlt := PacketIter.next_m_lt hx
    rw [hn] at hlt
    cases hp : s.path with
    | none =>
      have := ih it'.m hlt ⟨it', some [0]⟩ rfl
      simp [PacketPathIter.next, hx, hp, reconstruct, this]
    | some path =>
      have := ih it'.m hlt ⟨it', some (updatePath path it'.depth)⟩ rfl
      simp [PacketPathIter.next, hx, hp, reconstruct, this]

theorem incLast_append (base : List Nat) (j : Nat) :
    incLast (base ++ [j]) = base ++ [j + 1] := by
  induction base with
  | nil => simp [incLast]
  | cons x xs ih =>
    cases xs with
    | nil => simp [incLast]
    | cons y ys =>
      simp only [List.cons_append] at ih ⊢
      rw [incLast, ih]

theorem updatePath_sibling (base : List Nat) (j : Nat) :
    updatePath (base ++ [j]) base.length = base ++ [j + 1] := by
  simp [updatePath, incLast_append]

theorem updatePath_push (base : List Nat) (j : Nat) :
    updatePath (base ++ [j]) (base.length + 1) = (base ++ [j]) ++ [0] := by
  simp [updatePath]

theorem updatePath_of_prefix {base lp : List Nat} {j : Nat}
    (h : (base ++ [j]) <+: lp) :
    updatePath lp base.length = base ++ [j + 1] := by
  obtain ⟨r, hr⟩ := h
  subst hr
  cases r with
  | nil => simpa using updatePath_sibling base j
  | cons a as =>
    have hlen : ((base ++ [j]) ++ a :: as).length - 1
        = base.length + as.length + 1 := by simp; omega
    have htake : ((base ++ [j]) ++ a :: as).take (base.length + 1)
        = base ++ [j] := List.take_left' (by simp)
    simp only [updatePath, hlen]
    rw [if_pos (by omega), htake, incLast_append]

theorem lastPathF_prefix (cs : List Packet) (base : List Nat) (j : Nat) :
    base <+: lastPathF base j cs := by
  generalize hn : sizeL cs = n
  induction n using Nat.strong_induction_on generalizing cs base j with
  | _ n ih =>
  cases cs with
  | nil => simp [lastPathF]
  | cons p ps =>
    cases ps with
    | nil =>
      have h1 : sizeL p.childPackets < n := by
        have := sizeL_childPackets p
        have := Packet.size_pos p
        simp [sizeL] at hn
        omega
      have := ih _ h1 p.childPackets (base ++ [j]) 0 rfl
      rw [lastPathF]
      exact ((base.prefix_append [j]).trans this)
    | cons q qs =>
      have h2 : sizeL (q :: qs) < n := by
        have := Packet.size_pos p
        simp [sizeL] at hn ⊢
        omega
      rw [lastPathF]
      exact ih _ h2 (q :: qs) base (j + 1) rfl

/-- Telescope for the reconstruction replay: over a forest whose roots
sit at depth `base.length`, provided the previous path steps to
`base ++ [j]`, the replay emits exactly the naive path enumeration
prefixed with `base`, ending at the forest's last path. -/
theorem reconstruct_forest (cs : List Packet) (base : List Nat) (j : Nat)
    (prev : List Nat) (tail : List (Nat × Packet)) :
    cs ≠ [] → updatePath prev base.length = base ++ [j] →
    reconstruct (some prev) (annPreL base.length cs ++ tail)
      = ((pathPairsL cs j).map fun qp => (base ++ qp.1, qp.2))
        ++ reconstruct (some (lastPathF base j cs)) tail := by
  generalize hn : sizeL cs = n
  induction n using Nat.strong_induction_on generalizing cs base j prev tail with
  | _ n ih =>
  intro hne hup
  cases cs with
  | nil => exact absurd rfl hne
  | cons p ps =>
    have hpsize : sizeL p.childPackets < n := by
      have := sizeL_childPackets p
      have := Packet.size_pos p
      simp [sizeL] at hn
      omega
    have hstep : reconstruct (some prev)
        (annPreL base.length (p :: ps) ++ tail)
        = (base ++ [j], p) ::
          reconstruct (some (base ++ [j]))
            (annPreL (base.length + 1) p.childPackets
              ++ (annPreL base.length ps ++ tail)) := by
      rw [annPreL]
      simp only [List.cons_append, List.append_assoc, reconstruct, hup]
      simp [List.append_assoc]
    have hstage1 : reconstruct (some (base ++ [j]))
        (annPreL (base.length + 1) p.childPackets
          ++ (annPreL base.length ps ++ tail))
        = ((pathPairsL p.childPackets 0).map
            fun qp => ((base ++ [j]) ++ qp.1, qp.2))
          ++ reconstruct (some (lastPathF (base ++ [j]) 0 p.childPackets))
              (annPreL base.length ps ++ tail) := by
      cases hcp : p.childPackets with
      | nil => simp [annPreL, pathPairsL, lastPathF]
      | cons c cs' =>
        have hlt : sizeL (c :: cs') < n := by rw [← hcp]; exact hpsize
        have hup1 : updatePath (base ++ [j]) (base ++ [j]).length
            = (base ++ [j]) ++ [0] := by
          simpa using updatePath_push base j
        have := ih _ hlt (c :: cs') (base ++ [j]) 0 (base ++ [j])
          (annPreL base.length ps ++ tail) rfl (by simp) hup1
        simpa using this
    rw [hstep, hstage1]
    cases ps with
    | nil =>
      have hl : lastPathF base j [p]
          = lastPathF (base ++ [j]) 0 p.childPackets := by
        simp only [lastPathF]
      rw [hl]
      simp [annPreL, pathPairsL, List.map_map, Function.comp]
    | cons q qs =>
      have hqsize : sizeL (q :: qs) < n := by
        have := Packet.size_pos p
        simp [sizeL] at hn ⊢
        omega
      have hpre : (base ++ [j]) <+:
          lastPathF (base ++ [j]) 0 p.childPackets :=
        lastPathF_prefix p.childPackets (base ++ [j]) 0
      have hup2 : updatePath
          (lastPathF (base ++ [j]) 0 p.childPackets) base.length
          = base ++ [j + 1] := updatePath_of_prefix hpre
      have := ih _ hqsize (q :: qs) base (j + 1)
        (lastPathF (base ++ [j]) 0 p.childPackets) tail rfl (by simp) hup2
      rw [this]
      have hl : lastPathF base j (p :: q :: qs)
          = lastPathF base (j + 1) (q :: qs) := by
        simp only [lastPathF]
      rw [hl]
      simp [pathPairsL, List.map_map, Function.comp]

/-- Replaying the path rules over a depth-annotated pre-order (starting
with no path, as `PacketPathIter` does) yields exactly the naive
recursive path enumeration. -/
theorem reconstruct_annPreL (cs : List Packet) :
    reconstruct none (annPreL 0 cs) = pathPairsL cs 0 := by
  cases cs with
  | nil => simp [annPreL, reconstruct, pathPairsL]
  | cons p ps =>
    have hstep : reconstruct none (annPreL 0 (p :: ps))
        = ([0], p) :: reconstruct (some [0])
            (annPreL 1 p.childPackets ++ annPreL 0 ps) := by
      rw [annPreL]
      simp only [List.cons_append, reconstruct]
    have hstage1 : reconstruct (some [0])
        (annPreL 1 p.childPackets ++ annPreL 0 ps)
        = ((pathPairsL p.childPackets 0).map
            fun qp => (0 :: qp.1, qp.2))
          ++ reconstruct (some (lastPathF [0] 0 p.childPackets))
              (annPreL 0 ps) := by
      cases hcp : p.childPackets with
      | nil => simp [annPreL, pathPairsL, lastPathF]
      | cons c cs' =>
        have hup1 : updatePath [0] ([0] : List Nat).length
            = [0] ++ [0] := by
          simpa using updatePath_push ([] : List Nat) 0
        have := reconstruct_forest (c :: cs') [0] 0 [0]
          (annPreL 0 ps) (by simp) hup1
        simpa using this
    rw [hstep, hstage1]
    cases ps with
    | nil =>
      simp [annPreL, reconstruct, pathPairsL]
    | cons q qs =>
      have hpre : ([] ++ [0] : List Nat) <+:
          lastPathF [0] 0 p.childPackets := by
        simpa using lastPathF_prefix p.childPackets [0] 0
      have hup2 : updatePath (lastPathF [0] 0 p.childPackets)
          ([] : List Nat).length = [] ++ [1] :=
        updatePath_of_prefix hpre
      have := reconstruct_forest (q :: qs) [] 1
        (lastPathF [0] 0 p.childPackets) [] (by simp)
        (by simpa using hup2)
      have h0 : annPreL 0 (q :: qs)
          = annPreL ([] : List Nat).length (q :: qs) ++ [] := by simp
      rw [h0, this]
      simp [pathPairsL, reconstruct]

theorem pathPairsL_path_ne_nil (ps : List Packet) (j : Nat) :
    ∀ q x, (q, x) ∈ pathPairsL ps j → q ≠ [] := by
  generalize hn : sizeL ps = n
  induction n using Nat.strong_induction_on generalizing ps j with
  | _ n ih =>
  intro q x hmem
  cases ps with
  | nil => simp [pathPairsL] at hmem
  | cons p ps' =>
    rw [pathPairsL] at hmem
    simp only [List.mem_cons, List.mem_append, List.mem_map] at hmem
    rcases hmem with h | ⟨⟨q', x'⟩, _, h⟩ | h
    · simp at h
      simp [h.1]
    · simp at h
      intro hq
      rw [← h.1] at hq
      simp at hq
    · have h2 : sizeL ps' < n := by
        have := Packet.size_pos p
        simp [sizeL] at hn
        omega
      exact ih _ h2 ps' (j + 1) rfl q x h

/-- Every pair the naive path enumeration produces can be looked up:
`pathRefL` at the path returns exactly the paired packet.  `full` is
the whole sibling list; `ps` its suffix starting at index `j`. -/
theorem pathPairsL_lookup (ps : List Packet) (j : Nat)
    (full : List Packet) :
    full.drop j = ps → ∀ q x, (q, x) ∈ pathPairsL ps j →
    pathRefL full q = some x := by
  generalize hn : sizeL ps = n
  induction n using Nat.strong_induction_on generalizing ps j full with
  | _ n ih =>
  intro hdrop q x hmem
  cases ps with
  | nil => simp [pathPairsL] at hmem
  | cons p ps' =>
    have hget : full.get? j = some p := by
      have : (full.drop j).get? 0 = some p := by rw [hdrop]; rfl
      rwa [List.get?_drop, Nat.add_zero] at this
    have hdrop' : full.drop (j + 1) = ps' := by
      rw [← List.drop_drop, hdrop]
      rfl
    rw [pathPairsL] at hmem
    simp only [List.mem_cons, List.mem_append, List.mem_map] at hmem
    rcases hmem with h | ⟨⟨q', x'⟩, hq', h⟩ | h
    · have h1 : q = [j] := by simp at h; simp [h.1]
      have h2 : x = p := by simp at h; simp [h.2]
      subst h1; subst h2
      simpa [pathRefL] using hget
    · simp at h
      obtain ⟨hq, hx⟩ := h
      have hq'ne : q' ≠ [] :=
        pathPairsL_path_ne_nil p.childPackets 0 q' x' hq'
      cases hq'c : q' with
      | nil => exact absurd hq'c hq'ne
      | cons a as =>
        have h2 : sizeL p.childPackets < n := by
          have := sizeL_childPackets p
          have := Packet.size_pos p
          simp [sizeL] at hn
          omega
        have hlk := ih _ h2 p.childPackets 0 p.childPackets rfl rfl q' x' hq'
        rw [← hq, ← hx, hq'c]
        have hgetE : full[j]? = some p := by
          rw [← List.get?_eq_getElem?]
          exact hget
        simp [pathRefL, hgetE]
        exact hq'c ▸ hlk
    · have h2 : sizeL ps' < n := by
        have := Packet.size_pos p
        simp [sizeL] at hn
        omega
      exact ih _ h2 ps' (j + 1) full rfl hdrop' q x h

/-- Completeness of the naive path enumeration: every path `pathRefL`
resolves appears in it, paired with the packet it resolves to. -/
theorem pathRefL_complete (ps : List Packet) (j : Nat)
    (full : List Packet) :
    full.drop j = ps → ∀ i rest x, j ≤ i →
    pathRefL full (i :: rest) = some x →
    (i :: rest, x) ∈ pathPairsL ps j := by
  generalize hn : sizeL ps = n
  induction n using Nat.strong_induction_on generalizing ps j full with
  | _ n ih =>
  intro hdrop i rest x hij href
  cases ps with
  | nil =>
    exfalso
    have hlen : full.length ≤ j := by
      by_contra hcon
      push_neg at hcon
      have : full.drop j ≠ [] := by
        intro hd
        have := List.length_drop j full ▸ congrArg List.length hd
        simp at this
        omega
      exact this hdrop
    have hnone : full[i]? = none := by
      rw [← List.get?_eq_getElem?]
      exact List.get?_eq_none.2 (by omega)
    cases rest with
    | nil => simp [pathRefL, hnone] at href
    | cons a as => simp [pathRefL, hnone] at href
  | cons p ps' =>
    have hget : full.get? j = some p := by
      have : (full.drop j).get? 0 = some p := by rw [hdrop]; rfl
      rwa [List.get?_drop, Nat.add_zero] at this
    have hdrop' : full.drop (j + 1) = ps' := by
      rw [← List.drop_drop, hdrop]
      rfl
    rcases Nat.eq_or_lt_of_le hij with hji | hji
    · subst hji
      have hgetE : full[j]? = some p := by
        rw [← List.get?_eq_getElem?]
        exact hget
      cases rest with
      | nil =>
        have hx : some x = some p := by
          simp [pathRefL] at href
          rw [href] at hgetE
          exact hgetE
        have hx2 : x = p := Option.some_inj.1 hx
        subst hx2
        rw [pathPairsL]
        simp
      | cons a as =>
        have href2 : pathRefL p.childPackets (a :: as) = some x := by
          simpa [pathRefL, hgetE] using href
        have h2 : sizeL p.childPackets < n := by
          have := sizeL_childPackets p
          have := Packet.size_pos p
          simp [sizeL] at hn
          omega
        have hmem := ih _ h2 p.childPackets 0 p.childPackets rfl rfl
          a as x (Nat.zero_le a) href2
        rw [pathPairsL]
        simp only [List.mem_cons, List.mem_append, List.mem_map]
        exact Or.inr (Or.inl ⟨(a :: as, x), hmem, rfl⟩)
    · have h2 : sizeL ps' < n := by
        have := Packet.size_pos p
        simp [sizeL] at hn
        omega
      have := ih _ h2 ps' (j + 1) full rfl hdrop' i rest x hji href
      rw [pathPairsL]
      simp only [List.mem_cons, List.mem_append]
      exact Or.inr (Or.inr this)

theorem pathLtB_irrefl (l : List Nat) : pathLtB l l = false := by
  induction l with
  | nil => rfl
  | cons a as ih => simp [pathLtB, ih]

theorem pathLtB_asymm (l1 l2 : List Nat) :
    pathLtB l1 l2 = true → pathLtB l2 l1 = true → False := by
  induction l1 generalizing l2 with
  | nil =>
    cases l2 with
    | nil => simp [pathLtB]
    | cons b bs => simp [pathLtB]
  | cons a as ih =>
    cases l2 with
    | nil => simp [pathLtB]
    | cons b bs =>
      simp only [pathLtB, Bool.or_eq_true, Bool.and_eq_true,
        decide_eq_true_eq]
      rintro (h1 | ⟨h1e, h1r⟩) (h2 | ⟨h2e, h2r⟩)
      · omega
      · omega
      · omega
      · exact ih bs h1r h2r

/-- The paths of the naive enumeration are strictly increasing in the
tree order, and every path starts with an index in
`[j, j + ps.length)`. -/
theorem pathPairsL_sorted (ps : List Packet) (j : Nat) :
    ((pathPairsL ps j).map Prod.fst).Pairwise
        (fun a b => pathLtB a b = true) ∧
      ∀ q ∈ (pathPairsL ps j).map Prod.fst,
        ∃ i t, q = i :: t ∧ j ≤ i ∧ i < j + ps.length := by
  generalize hn : sizeL ps = n
  induction n using Nat.strong_induction_on generalizing ps j with
  | _ n ih =>
  cases ps with
  | nil => simp [pathPairsL]
  | cons p ps' =>
    have hcp : sizeL p.childPackets < n := by
      have := sizeL_childPackets p
      have := Packet.size_pos p
      simp [sizeL] at hn
      omega
    have hps : sizeL ps' < n := by
      have := Packet.size_pos p
      simp [sizeL] at hn
      omega
    obtain ⟨ihc_pw, ihc_bd⟩ := ih _ hcp p.childPackets 0 rfl
    obtain ⟨ihs_pw, ihs_bd⟩ := ih _ hps ps' (j + 1) rfl
    have hform : (pathPairsL (p :: ps') j).map Prod.fst
        = [j] :: ((((pathPairsL p.childPackets 0).map Prod.fst).map
              (fun q => j :: q))
            ++ (pathPairsL ps' (j + 1)).map Prod.fst) := by
      rw [pathPairsL]
      simp [List.map_map, Function.comp]
    rw [hform]
    constructor
    · rw [List.pairwise_cons]
      constructor
      · intro q hq
        rcases List.mem_append.1 hq with hql | hqr
        · obtain ⟨t, ht, hqt⟩ := List.mem_map.1 hql
          obtain ⟨i, t2, hti, _, _⟩ := ihc_bd t ht
          subst hqt
          simp [pathLtB, hti]
        · obtain ⟨i, t, hqi, hji, _⟩ := ihs_bd q hqr
          subst hqi
          simp [pathLtB, Nat.blt_eq]
          omega
      · rw [List.pairwise_append]
        refine ⟨?_, ihs_pw, ?_⟩
        · rw [List.pairwise_map]
          refine ihc_pw.imp ?_
          intro a b hab
          simp [pathLtB, hab, Nat.beq_eq]
        · intro a ha b hb
          obtain ⟨t, _, hat⟩ := List.mem_map.1 ha
          obtain ⟨i, t2, hbi, hji, _⟩ := ihs_bd b hb
          subst hat
          subst hbi
          simp [pathLtB, Nat.blt_eq]
          omega
    · intro q hq
      rcases List.mem_cons.1 hq with hq0 | hq1
      · exact ⟨j, [], hq0, Nat.le_refl j, by simp⟩
      rcases List.mem_append.1 hq1 with hql | hqr
      · obtain ⟨t, _, hqt⟩ := List.mem_map.1 hql
        exact ⟨j, t, hqt.symm, Nat.le_refl j, by simp⟩
      · obtain ⟨i, t, hqi, hji, hlt⟩ := ihs_bd q hqr
        refine ⟨i, t, hqi, by omega, by simp [List.length_cons]; omega⟩

/-- The depth projection of the annotated pre-order is the plain
pre-order. -/
theorem annPreL_map_snd (d : Nat) (l : List Packet) :
    (annPreL d l).map Prod.snd = preorderL l := by
  generalize hn : sizeL l = n
  induction n using Nat.strong_induction_on generalizing d l with
  | _ n ih =>
  cases l with
  | nil => simp [annPreL, preorderL]
  | cons p ps =>
    have h1 : sizeL p.childPackets < n := by
      have := sizeL_childPackets p
      have := Packet.size_pos p
      simp [sizeL] at hn
      omega
    have h2 : sizeL ps < n := by
      have := Packet.size_pos p
      simp [sizeL] at hn
      omega
    rw [annPreL, preorderL]
    simp [ih _ h1 (d + 1) _ rfl, ih _ h2 d _ rfl]

/-- The `(path, packet)` run of `descendants().paths()` is the naive
recursive path enumeration. -/
theorem Container.paths_run (c : Container) :
    (c.descendants.paths).run = pathPairsL c.packets 0 := by
  rw [PacketPathIter.run_reconstruct]
  show reconstruct none c.descendants.drun = _
  rw [Container.descendants_drun, reconstruct_annPreL]

/-- In a strictly `pathLtB`-sorted list, no member lies strictly
between two adjacent entries. -/
theorem sorted_no_between (L : List (List Nat))
    (hpw : L.Pairwise fun a b => pathLtB a b = true)
    (k : Nat) (hk : k + 1 < L.length) (r : List Nat) (hr : r ∈ L) :
    ¬(pathLtB (L.get ⟨k, Nat.lt_of_succ_lt hk⟩) r = true ∧
      pathLtB r (L.get ⟨k + 1, hk⟩) = true) := by
  rintro ⟨h1, h2⟩
  obtain ⟨⟨m, hm⟩, hms⟩ := List.mem_iff_get.1 hr
  have hget := List.pairwise_iff_get.1 hpw
  rcases Nat.lt_trichotomy m k with hmk | hmk | hmk
  · have := hget ⟨m, hm⟩ ⟨k, Nat.lt_of_succ_lt hk⟩ hmk
    rw [hms] at this
    exact pathLtB_asymm _ _ this h1
  · subst hmk
    rw [show (⟨m, hm⟩ : Fin L.length)
        = ⟨m, Nat.lt_of_succ_lt hk⟩ from rfl] at hms
    rw [hms] at h1
    rw [pathLtB_irrefl] at h1
    exact Bool.false_ne_true h1
  · rcases Nat.eq_or_lt_of_le hmk with hmk1 | hmk1
    · rw [show (⟨m, hm⟩ : Fin L.length)
          = ⟨k + 1, hk⟩ from by simp [← hmk1]] at hms
      rw [hms] at h2
      rw [pathLtB_irrefl] at h2
      exact Bool.false_ne_true h2
    · have := hget ⟨k + 1, hk⟩ ⟨m, hm⟩ hmk1
      rw [hms] at this
      exact pathLtB_asymm _ _ this h2

/-- C1: new-format body-length decoding reads one octet `o1` and
returns `Full(o1)` for `o1 ∈ [0,191]`; reads a second octet `o2` and
returns `Full(((o1-192)<<8) + o2 + 192)` for `o1 ∈ [192,223]`; returns
`Partial(1 << (o1 & 0x1F))` for `o1 ∈ [224,254]`; and reads four
big-endian octets into `Full` for `o1 = 255`; with the RFC 4880
examples `[0x64] → Full 100`, `[0xC5,0xFB] → Full 1723`,
`[0xFF,0x00,0x01,0x86,0xA0] → Full 100000`, `[0xEF] → Partial 32768`,
`[0xE1] → Partial 2`. -/
theorem claim_C1 :
    (∀ o1 s, o1 ≤ 191 →
      BodyLength.parse_new_format (o1 :: s) = some (.Full o1, s)) ∧
    (∀ o1 o2 s, 192 ≤ o1 → o1 ≤ 223 →
      BodyLength.parse_new_format (o1 :: o2 :: s)
        = some (.Full (((o1 - 192) <<< 8) + o2 + 192), s)) ∧
    (∀ o1 s, 224 ≤ o1 → o1 ≤ 254 →
      BodyLength.parse_new_format (o1 :: s)
        = some (.Partial (1 <<< (o1 &&& 0x1F)), s)) ∧
    (∀ b0 b1 b2 b3 s,
      BodyLength.parse_new_format (255 :: b0 :: b1 :: b2 :: b3 :: s)
        = some (.Full (((b0 * 256 + b1) * 256 + b2) * 256 + b3), s)) ∧
    BodyLength.parse_new_format [0x64] = some (.Full 100, []) ∧
    BodyLength.parse_new_format [0xC5, 0xFB] = some (.Full 1723, []) ∧
    BodyLength.parse_new_format [0xFF, 0x00, 0x01, 0x86, 0xA0]
      = some (.Full 100000, []) ∧
    BodyLength.parse_new_format [0xEF] = some (.Partial 32768, []) ∧
    BodyLength.parse_new_format [0xE1] = some (.Partial 2, []) := by
  refine ⟨?_, ?_, ?_, ?_, by decide, by decide, by decide, by decide,
    by decide⟩
  · intro o1 s h
    simp [BodyLength.parse_new_format, dch1, h]
  · intro o1 o2 s h1 h2
    simp [BodyLength.parse_new_format, dch1,
      show ¬o1 ≤ 191 from by omega, h2]
  · intro o1 s h1 h2
    simp [BodyLength.parse_new_format, dch1,
      show ¬o1 ≤ 191 from by omega, show ¬o1 ≤ 223 from by omega, h2]
  · intro b0 b1 b2 b3 s
    simp [BodyLength.parse_new_format, dch1, read_be_u32]

/-- Witness for C1: each quantified case evaluated at a concrete
input. -/
theorem claim_C1_witness :
    BodyLength.parse_new_format [100, 7] = some (.Full 100, [7]) ∧
    BodyLength.parse_new_format [0xC5, 0xFB] = some (.Full 1723, []) ∧
    BodyLength.parse_new_format [0xEF] = some (.Partial 32768, []) ∧
    BodyLength.parse_new_format [255, 0, 1, 0x86, 0xA0]
      = some (.Full 100000, []) :=
  ⟨claim_C1.1 100 [7] (by decide),
   by simpa using claim_C1.2.1 0xC5 0xFB [] (by decide) (by decide),
   by simpa using claim_C1.2.2.1 0xEF [] (by decide) (by decide),
   by simpa using claim_C1.2.2.2.1 0 1 0x86 0xA0 []⟩

/-- C2: old-format body-length decoding returns `Full` of one octet,
a big-endian u16, or a big-endian u32 for the `OneOctet`, `TwoOctets`
and `FourOctets` length types, and `Indeterminate` (consuming nothing)
for `Indeterminate`; in every case the residual stream is exactly the
input minus the declared length octets, and `[0x01, 0x02]` under
`TwoOctets` decodes to `Full 258` with no residual. -/
theorem claim_C2 :
    (∀ b s, BodyLength.parse_old_format (b :: s) .OneOctet
      = some (.Full b, s)) ∧
    (∀ b0 b1 s, BodyLength.parse_old_format (b0 :: b1 :: s) .TwoOctets
      = some (.Full (b0 * 256 + b1), s)) ∧
    (∀ b0 b1 b2 b3 s,
      BodyLength.parse_old_format (b0 :: b1 :: b2 :: b3 :: s) .FourOctets
        = some (.Full (((b0 * 256 + b1) * 256 + b2) * 256 + b3), s)) ∧
    (∀ s, BodyLength.parse_old_format s .Indeterminate
      = some (.Indeterminate, s)) ∧
    BodyLength.parse_old_format [0x01, 0x02] .TwoOctets
      = some (.Full 258, []) := by
  refine ⟨?_, ?_, ?_, ?_, by decide⟩
  · intro b s
    simp [BodyLength.parse_old_format, dch1]
  · intro b0 b1 s
    simp [BodyLength.parse_old_format, read_be_u16]
  · intro b0 b1 b2 b3 s
    simp [BodyLength.parse_old_format, read_be_u32]
  · intro s
    simp [BodyLength.parse_old_format]

/-- C8: new-format body-length decoding fails exactly when the stream
ends mid-encoding — empty input, a two-octet introducer with no second
octet, or `255` followed by fewer than four octets; otherwise it
returns a value. -/
theorem claim_C8 (s : List Nat) (hb : ∀ b ∈ s, b < 256) :
    BodyLength.parse_new_format s = none ↔
      (s = [] ∨ ∃ o1 rest, s = o1 :: rest ∧
        ((192 ≤ o1 ∧ o1 ≤ 223 ∧ rest = []) ∨
         (o1 = 255 ∧ rest.length < 4))) := by
  cases s with
  | nil => simp [BodyLength.parse_new_format, dch1]
  | cons o1 rest =>
    have ho1 : o1 < 256 := hb o1 (List.mem_cons_self o1 rest)
    by_cases h1 : o1 ≤ 191
    · simp [BodyLength.parse_new_format, dch1, h1]
      omega
    · by_cases h2 : o1 ≤ 223
      · cases rest with
        | nil =>
          simp [BodyLength.parse_new_format, dch1, h1, h2]
          exact ⟨o1, [], ⟨rfl, rfl⟩, Or.inl ⟨by omega, by omega, rfl⟩⟩
        | cons o2 rest2 =>
          simp [BodyLength.parse_new_format, dch1, h1, h2]
          omega
      · by_cases h3 : o1 ≤ 254
        · simp [BodyLength.parse_new_format, dch1, h1, h2, h3]
          omega
        · have h4 : o1 = 255 := by omega
          subst h4
          match rest with
          | [] =>
            simp [BodyLength.parse_new_format, dch1, read_be_u32]
            exact ⟨255, [], ⟨rfl, rfl⟩, Or.inr ⟨rfl, by simp⟩⟩
          | [b0] =>
            simp [BodyLength.parse_new_format, dch1, read_be_u32]
            exact ⟨255, [b0], ⟨rfl, rfl⟩, Or.inr ⟨rfl, by simp⟩⟩
          | [b0, b1] =>
            simp [BodyLength.parse_new_format, dch1, read_be_u32]
            exact ⟨255, [b0, b1], ⟨rfl, rfl⟩, Or.inr ⟨rfl, by simp⟩⟩
          | [b0, b1, b2] =>
            simp [BodyLength.parse_new_format, dch1, read_be_u32]
            exact ⟨255, [b0, b1, b2], ⟨rfl, rfl⟩, Or.inr ⟨rfl, by simp⟩⟩
          | b0 :: b1 :: b2 :: b3 :: rest4 =>
            simp [BodyLength.parse_new_format, dch1, read_be_u32]

/-- Witness for C8: the two-octet introducer `0xC5` with no second
octet fails; its byte bound holds. -/
theorem claim_C8_witness :
    (∀ b ∈ [0xC5], b < 256) ∧
    (BodyLength.parse_new_format [0xC5] = none ↔
      ([0xC5] = ([] : List Nat) ∨ ∃ o1 rest, [0xC5] = o1 :: rest ∧
        ((192 ≤ o1 ∧ o1 ≤ 223 ∧ rest = []) ∨
         (o1 = 255 ∧ rest.length < 4)))) :=
  ⟨by decide, claim_C8 [0xC5] (by decide)⟩

/-- C4: after `set_body`, `children` is `None` and `body` is `Some d`
for non-empty `d` and `None` for empty `d`; hence `body` and
`children` are never simultaneously populated after a `set_body`. -/
theorem claim_C4 (c : Common) (d : List Nat) :
    (c.set_body d).2.children = none ∧
    (c.set_body d).2.body = (if d = [] then none else some d) ∧
    ¬((c.set_body d).2.body ≠ none ∧ (c.set_body d).2.children ≠ none) := by
  refine ⟨rfl, ?_, ?_⟩
  · cases d with
    | nil => simp [Common.set_body]
    | cons b bs => simp [Common.set_body]
  · intro h
    exact h.2 rfl

/-- C10: `set_body` returns the previous body (the empty vector when
there was none); the returned value does not depend on the new data. -/
theorem claim_C10 (c : Common) (d e : List Nat) :
    (c.set_body d).1 = c.body.getD [] ∧
    (c.set_body d).1 = (c.set_body e).1 :=
  ⟨rfl, rfl⟩

/-- C3: the dearmor dispatch of `finalize` — `Disabled` always parses
as binary, `Enabled` always wraps in an armor reader, and `Auto`
parses as binary exactly when a header decodes from the duplicated
prefix and is structurally valid; in every mode the stream handed on
is the original input (the duplicated prefix is not consumed). -/
theorem claim_C3 {H : Type} (headerParse : List Nat → Option H)
    (headerValid : H → Bool) (m : ArmorReaderMode) (s : List Nat) :
    dearmorMode headerParse headerValid .Disabled s = (none, s) ∧
    dearmorMode headerParse headerValid (.Enabled m) s = (some m, s) ∧
    ((dearmorMode headerParse headerValid (.Auto m) s).1 = none ↔
      ∃ h, headerParse s = some h ∧ headerValid h = true) ∧
    (dearmorMode headerParse headerValid (.Auto m) s).2 = s := by
  refine ⟨rfl, rfl, ?_, ?_⟩
  · cases hp : headerParse s with
    | none => simp [dearmorMode, hp]
    | some h =>
      cases hv : headerValid h with
      | false => simp [dearmorMode, hp, hv]
      | true => simp [dearmorMode, hp, hv]
  · cases hp : headerParse s with
    | none => simp [dearmorMode, hp]
    | some h =>
      cases hv : headerValid h with
      | false => simp [dearmorMode, hp, hv]
      | true => simp [dearmorMode, hp, hv]

/-- C9: finalizing with `Enabled` dearmoring on an input containing no
armor header yields a successful EOF result rather than an error. -/
theorem claim_C9 (decode : List Nat → List Nat)
    (parse : List Nat → Except Unit FinalizeResult) (s : List Nat)
    (hno : ¬(armorBeginMarker <:+: s)) :
    finalizeEnabled decode parse s = .ok .eof := by
  simp [finalizeEnabled, armorReaderOutput, hno]

/-- Witness for C9: a binary stream (a new-format signature header
octet followed by arbitrary bytes) holds no armor header line. -/
theorem claim_C9_witness :
    ¬(armorBeginMarker <:+: [0x88, 0x02, 0x00, 0x00]) ∧
    finalizeEnabled (fun l => l) (fun _ => .ok .parsedPacket)
      [0x88, 0x02, 0x00, 0x00] = .ok .eof :=
  ⟨by decide,
   claim_C9 (fun l => l) (fun _ => .ok .parsedPacket)
     [0x88, 0x02, 0x00, 0x00] (by decide)⟩

/-- C6: `descendants()` yields exactly the depth-first pre-order of
the container — every packet precedes its own descendants, immediate
children appear in insertion order — and the sequence is finite (a
`List`). -/
theorem claim_C6 (c : Container) :
    c.descendants.run = preorderL c.packets := by
  rw [PacketIter.run_eq_drun, Container.descendants_drun, annPreL_map_snd]

/-- C5: the `(path, packet)` sequence of `descendants().paths()`
equals the naive recursive depth-first enumeration (child at index `i`
contributes `[i]` followed by its descendant paths prefixed with `i`),
and looking each yielded path up in the tree returns the paired
packet. -/
theorem claim_C5 (c : Container) :
    (c.descendants.paths).run = pathPairsL c.packets 0 ∧
    ((c.descendants.paths).run).Forall
      (fun pr => pathRefL c.packets pr.1 = some pr.2) := by
  refine ⟨Container.paths_run c, ?_⟩
  rw [List.forall_iff_forall_mem]
  intro pr hpr
  rw [Container.paths_run] at hpr
  obtain ⟨q, x⟩ := pr
  exact pathPairsL_lookup c.packets 0 c.packets rfl q x hpr

/-- C7: consecutive paths yielded by `paths()` (maintained only by the
push-0 / increment-last / truncate-and-increment rules of
`updatePath`) are strict lexicographic neighbours under the tree
order: each is below its successor, and no path resolvable in the tree
lies strictly between them. -/
theorem claim_C7 (c : Container) (k : Nat)
    (hk : k + 1 < ((c.descendants.paths).run.map Prod.fst).length) :
    pathLtB
        (((c.descendants.paths).run.map Prod.fst).get
          ⟨k, Nat.lt_of_succ_lt hk⟩)
        (((c.descendants.paths).run.map Prod.fst).get ⟨k + 1, hk⟩)
      = true ∧
    ∀ r : List Nat, (pathRefL c.packets r).isSome = true →
      ¬(pathLtB
          (((c.descendants.paths).run.map Prod.fst).get
            ⟨k, Nat.lt_of_succ_lt hk⟩) r = true ∧
        pathLtB r
          (((c.descendants.paths).run.map Prod.fst).get ⟨k + 1, hk⟩)
          = true) := by
  have hpw : ((c.descendants.paths).run.map Prod.fst).Pairwise
      (fun a b => pathLtB a b = true) := by
    rw [Container.paths_run]
    exact (pathPairsL_sorted c.packets 0).1
  constructor
  · exact List.pairwise_iff_get.1 hpw ⟨k, Nat.lt_of_succ_lt hk⟩
      ⟨k + 1, hk⟩ (by simp)
  · intro r hrv
    obtain ⟨x, hx⟩ := Option.isSome_iff_exists.1 hrv
    have hrne : r ≠ [] := by
      intro hre
      rw [hre] at hx
      simp [pathRefL] at hx
    obtain ⟨i, rest, hir⟩ := List.exists_cons_of_ne_nil hrne
    have hmem : (r, x) ∈ pathPairsL c.packets 0 := by
      rw [hir]
      exact pathRefL_complete c.packets 0 c.packets rfl i rest x
        (Nat.zero_le i) (hir ▸ hx)
    have hrL : r ∈ (c.descendants.paths).run.map Prod.fst := by
      rw [Container.paths_run]
      exact List.mem_map.2 ⟨(r, x), hmem, rfl⟩
    exact sorted_no_between _ hpw k hk r hrL

/-- Witness for C7: the concrete container with paths
`[0], [0,0], [1]` at `k = 0`. -/
theorem claim_C7_witness :
    (0 + 1 < ((wContainer.descendants.paths).run.map Prod.fst).length) ∧
    (pathLtB
        (((wContainer.descendants.paths).run.map Prod.fst).get
          ⟨0, Nat.lt_of_succ_lt (by decide)⟩)
        (((wContainer.descendants.paths).run.map Prod.fst).get
          ⟨0 + 1, by decide⟩)
      = true ∧
    ∀ r : List Nat, (pathRefL wContainer.packets r).isSome = true →
      ¬(pathLtB
          (((wContainer.descendants.paths).run.map Prod.fst).get
            ⟨0, Nat.lt_of_succ_lt (by decide)⟩) r = true ∧
        pathLtB r
          (((wContainer.descendants.paths).run.map Prod.fst).get
            ⟨0 + 1, by decide⟩)
          = true)) :=
  ⟨by decide, claim_C7 wContainer 0 (by decide)⟩

end Sequoia

